import Mathlib

/-!
Verification of the `logo.py` animation pipeline.

The script loads an RGBA image, zeroes its green and blue channels
(`only_red`), and for each of `FRAME_RATE * DURATION` frame indices applies
`shift_hue` (hue override + brightness scaling through colorsys-style
RGB↔HSV conversion), converts the float raster back to `uint8`, and saves
all frames as one looping animation.

The embedding models a raster as a list of RGBA pixels; the numpy
`np.vectorize(colorsys.…)` calls are elementwise maps, so every raster
operation is a `List.map` of a per-pixel function.  Python floats are
modelled as elements of a linear ordered field with a floor function
(instantiated at `ℚ` for executable witnesses and at `ℝ` for the actual
pipeline, whose brightness factor involves `Real.sin`).
-/

namespace Logo

/-- Python `int(x)`: truncation toward zero (`colorsys` relies on this). -/
def pyInt {K : Type} [LinearOrderedField K] [FloorRing K] (x : K) : ℤ :=
  if 0 ≤ x then ⌊x⌋ else -⌊-x⌋

/-- Python `x % 1.0` on floats: the fractional part, always in `[0, 1)`. -/
def pymod1 {K : Type} [LinearOrderedField K] [FloorRing K] (x : K) : K :=
  x - (⌊x⌋ : K)

section ColorConv

variable {K : Type} [LinearOrderedField K] [FloorRing K]

/-- `colorsys.rgb_to_hsv` (value-scale-agnostic: works for `[0,255]` data). -/
def rgb_to_hsv (r g b : K) : K × K × K :=
  let maxc := max r (max g b)
  let minc := min r (min g b)
  let rangec := maxc - minc
  let v := maxc
  if minc = maxc then (0, 0, v)
  else
    let s := rangec / maxc
    let rc := (maxc - r) / rangec
    let gc := (maxc - g) / rangec
    let bc := (maxc - b) / rangec
    let h := if r = maxc then bc - gc
             else if g = maxc then 2 + rc - bc
             else 4 + gc - rc
    (pymod1 (h / 6), s, v)

/-- `colorsys.hsv_to_rgb` (`int()` truncates; `i % 6` is the nonnegative
Python integer remainder). -/
def hsv_to_rgb (h s v : K) : K × K × K :=
  if s = 0 then (v, v, v)
  else
    let i0 := pyInt (h * 6)
    let f := h * 6 - (i0 : K)
    let p := v * (1 - s)
    let q := v * (1 - s * f)
    let t := v * (1 - s * (1 - f))
    let i := i0 % 6
    if i = 0 then (v, t, p)
    else if i = 1 then (q, v, p)
    else if i = 2 then (p, v, t)
    else if i = 3 then (p, q, v)
    else if i = 4 then (t, p, v)
    else (v, p, q)

end ColorConv

/-- One RGBA pixel with channels in `K`. -/
structure RGBA (K : Type) where
  r : K
  g : K
  b : K
  a : K
deriving DecidableEq, Repr

section PixelOps

variable {K : Type} [LinearOrderedField K] [FloorRing K]

/-- Per-pixel body of `shift_hue`: `h = hout`, `v *= factor`, alpha kept. -/
def shift_hue_pixel (px : RGBA K) (hout factor : K) : RGBA K :=
  let hsv := rgb_to_hsv px.r px.g px.b
  let h := hout
  let s := hsv.2.1
  let v := hsv.2.2 * factor
  let rgb := hsv_to_rgb h s v
  ⟨rgb.1, rgb.2.1, rgb.2.2, px.a⟩

/-- `shift_hue(arr, hout, factor)`: the vectorized conversion acts
elementwise, `a` is re-stacked unchanged. -/
def shift_hue (arr : List (RGBA K)) (hout factor : K) : List (RGBA K) :=
  arr.map (fun px => shift_hue_pixel px hout factor)

/-- Per-pixel body of `only_red`: `g = 0.0`, `b = 0.0`, RGB→HSV→RGB
round trip, alpha kept. -/
def only_red_pixel (px : RGBA K) : RGBA K :=
  let hsv := rgb_to_hsv px.r 0 0
  let rgb := hsv_to_rgb hsv.1 hsv.2.1 hsv.2.2
  ⟨rgb.1, rgb.2.1, rgb.2.2, px.a⟩

/-- `only_red(arr)`. -/
def only_red (arr : List (RGBA K)) : List (RGBA K) :=
  arr.map only_red_pixel

/-- numpy `astype('uint8')` on a float sample: C-style cast, truncation
toward zero followed by reduction modulo 256 (wrap-around, no clamping). -/
def astype_uint8 (x : K) : ℤ :=
  pyInt x % 256

/-- Modelled from the spec: the clamping float→uint8 conversion the spec
asks for ("output channel values should be clamped/truncated to the valid
integer sample range (e.g., 0–255)").  Used only to compare against the
code's `astype_uint8`. -/
def spec_clamp_uint8 (x : K) : ℤ :=
  min 255 (max 0 (pyInt x))

end PixelOps

/-! ## Configuration constants and the frame scheduler -/

def FRAME_RATE : ℕ := 15
def DURATION : ℕ := 3
def SHIFTS : ℕ := 1
def BLINKS : ℕ := 3

/-- `elapsed_time = i / FRAME_RATE`, with a configurable frame rate. -/
noncomputable def elapsed_time (frame_rate : ℕ) (i : ℕ) : ℝ :=
  (i : ℝ) / (frame_rate : ℝ)

/-- `hue = elapsed_time * (SHIFTS / DURATION) * 1.0`. -/
noncomputable def hue (frame_rate duration shifts : ℕ) (i : ℕ) : ℝ :=
  elapsed_time frame_rate i * ((shifts : ℝ) / (duration : ℝ)) * 1.0

/-- `brightness = 0.5 + 0.5 * np.sin(2 * np.pi * (BLINKS / DURATION) * elapsed_time)`. -/
noncomputable def brightness (frame_rate duration blinks : ℕ) (i : ℕ) : ℝ :=
  0.5 + 0.5 * Real.sin (2 * Real.pi * ((blinks : ℝ) / (duration : ℝ)) *
    elapsed_time frame_rate i)

/-- The spec's hue formula: `hue(i) = elapsed_time * (shifts / duration)`. -/
noncomputable def spec_hue (frame_rate duration shifts : ℕ) (i : ℕ) : ℝ :=
  ((i : ℝ) / (frame_rate : ℝ)) * ((shifts : ℝ) / (duration : ℝ))

/-- The spec's brightness formula:
`brightness(i) = 0.5 + 0.5 * sin(2π * (blinks/duration) * elapsed_time)`. -/
noncomputable def spec_brightness (frame_rate duration blinks : ℕ) (i : ℕ) : ℝ :=
  0.5 + 0.5 * Real.sin (2 * Real.pi * ((blinks : ℝ) / (duration : ℝ)) *
    ((i : ℝ) / (frame_rate : ℝ)))

/-! ## The pipeline -/

/-- `np.asarray(input_logo).astype('float')`: a uint8 RGBA pixel as floats. -/
noncomputable def astype_float (px : RGBA (Fin 256)) : RGBA ℝ :=
  ⟨((px.r : ℕ) : ℝ), ((px.g : ℕ) : ℝ), ((px.b : ℕ) : ℝ), ((px.a : ℕ) : ℝ)⟩

/-- `arr = only_red(arr).astype('float')`: the red-isolated baseline. -/
noncomputable def baseline (img : List (RGBA (Fin 256))) : List (RGBA ℝ) :=
  only_red (img.map astype_float)

/-- The float raster of frame `i`:
`shift_hue(arr, hue, brightness)` for the scheduler's parameters. -/
noncomputable def frame_float (img : List (RGBA (Fin 256))) (i : ℕ) : List (RGBA ℝ) :=
  shift_hue (baseline img) (hue FRAME_RATE DURATION SHIFTS i)
    (brightness FRAME_RATE DURATION BLINKS i)

/-- `new_img`: frame `i` after `.astype('uint8')`. -/
noncomputable def new_img (img : List (RGBA (Fin 256))) (i : ℕ) : List (RGBA ℤ) :=
  (frame_float img i).map
    (fun px => ⟨astype_uint8 px.r, astype_uint8 px.g, astype_uint8 px.b,
      astype_uint8 px.a⟩)

/-- The `frames` list built by the main loop over
`range(FRAME_RATE * DURATION)`. -/
noncomputable def frames (img : List (RGBA (Fin 256))) : List (List (RGBA ℤ)) :=
  (List.range (FRAME_RATE * DURATION)).map (new_img img)

/-- Python `round()` on a rational: nearest integer, ties to even. -/
def pyRound (x : ℚ) : ℤ :=
  if x - (⌊x⌋ : ℚ) < 1/2 then ⌊x⌋
  else if 1/2 < x - (⌊x⌋ : ℚ) then ⌊x⌋ + 1
  else if ⌊x⌋ % 2 = 0 then ⌊x⌋ else ⌊x⌋ + 1

/-- `frame_duration_ms = round(1000 / FRAME_RATE)` (computed, never used). -/
def frame_duration_ms : ℤ :=
  pyRound (1000 / (FRAME_RATE : ℚ))

/-- The encoded animation artifact: base frame, appended frames, per-frame
display duration (ms), loop flag (`0` = loop forever). -/
structure Animation (F : Type) where
  first : F
  append_images : List F
  duration : ℚ
  loop : ℕ
deriving DecidableEq, Repr

/-- `frames[0].save(..., append_images=frames[1:], duration=d, loop=l)`:
`frames[0]` on an empty list raises `IndexError`, so no artifact is
produced (`none`); otherwise the artifact holds frame 0 as base and the
rest appended in order. -/
def save {F : Type} (fs : List F) (d : ℚ) (l : ℕ) : Option (Animation F) :=
  match fs with
  | [] => none
  | f0 :: rest => some ⟨f0, rest, d, l⟩

/-- The whole script's output: the save call with `duration=1000/FRAME_RATE`
(unrounded true division) and `loop=0`. -/
noncomputable def output (img : List (RGBA (Fin 256))) : Option (Animation (List (RGBA ℤ))) :=
  save (frames img) (1000 / (FRAME_RATE : ℚ)) 0



section FloorLemmas

variable {K : Type} [LinearOrderedField K] [FloorRing K]

lemma pyInt_of_nonneg {x : K} (hx : 0 ≤ x) : pyInt x = ⌊x⌋ := if_pos hx

lemma pymod1_self {x : K} (h0 : 0 ≤ x) (h1 : x < 1) : pymod1 x = x := by
  unfold pymod1
  rw [Int.floor_eq_zero_iff.mpr ⟨h0, h1⟩]
  simp

lemma pymod1_add_one {x : K} (h0 : -1 ≤ x) (h1 : x < 0) : pymod1 x = x + 1 := by
  unfold pymod1
  have hfl : ⌊x⌋ = -1 := by
    rw [Int.floor_eq_iff]
    constructor
    · push_cast
      linarith
    · push_cast
      linarith
  rw [hfl]
  push_cast
  ring

lemma hsv_to_rgb_eval (h s v : K) (hs : s ≠ 0) (k : ℤ) (hk0 : 0 ≤ k) (hk5 : k ≤ 5)
    (h1 : (k : K) ≤ h * 6) (h2 : h * 6 < (k : K) + 1) :
    hsv_to_rgb h s v =
      (fun f =>
        if k = 0 then (v, v * (1 - s * (1 - f)), v * (1 - s))
        else if k = 1 then (v * (1 - s * f), v, v * (1 - s))
        else if k = 2 then (v * (1 - s), v, v * (1 - s * (1 - f)))
        else if k = 3 then (v * (1 - s), v * (1 - s * f), v)
        else if k = 4 then (v * (1 - s * (1 - f)), v * (1 - s), v)
        else (v, v * (1 - s), v * (1 - s * f))) (h * 6 - (k : K)) := by
  have hk : (0 : K) ≤ (k : K) := by exact_mod_cast hk0
  have hnn : (0 : K) ≤ h * 6 := le_trans hk h1
  have hfl : ⌊h * 6⌋ = k := Int.floor_eq_iff.mpr ⟨h1, h2⟩
  have hmod : k % 6 = k := Int.emod_eq_of_lt hk0 (by omega)
  simp only [hsv_to_rgb, if_neg hs, pyInt_of_nonneg hnn, hfl, hmod]

end FloorLemmas

section Roundtrip

variable {K : Type} [LinearOrderedField K] [FloorRing K]

set_option maxHeartbeats 1000000 in
lemma roundtrip_aux (r g b : K) (h0r : 0 ≤ r) (h0g : 0 ≤ g) (h0b : 0 ≤ b) :
    hsv_to_rgb (rgb_to_hsv r g b).1 (rgb_to_hsv r g b).2.1 (rgb_to_hsv r g b).2.2
      = (r, g, b) := by
  by_cases heq : min r (min g b) = max r (max g b)
  · -- degenerate case: all three channels are equal
    have hrm : r = max r (max g b) :=
      le_antisymm (le_max_left _ _) (heq ▸ min_le_left _ _)
    have hgm : g = max r (max g b) :=
      le_antisymm (le_trans (le_max_left g b) (le_max_right r _))
        (heq ▸ le_trans (min_le_right r _) (min_le_left g b))
    have hbm : b = max r (max g b) :=
      le_antisymm (le_trans (le_max_right g b) (le_max_right r _))
        (heq ▸ le_trans (min_le_right r _) (min_le_right g b))
    have hg' : g = r := hgm.trans hrm.symm
    have hb' : b = r := hbm.trans hrm.symm
    subst hg'
    subst hb'
    simp [rgb_to_hsv, hsv_to_rgb]
  · -- main case
    have hmle : min r (min g b) ≤ max r (max g b) :=
      le_trans (min_le_left _ _) (le_max_left _ _)
    have hlt : min r (min g b) < max r (max g b) := lt_of_le_of_ne hmle heq
    have hm0 : 0 ≤ min r (min g b) := le_min h0r (le_min h0g h0b)
    have hM0 : 0 < max r (max g b) := lt_of_le_of_lt hm0 hlt
    simp only [rgb_to_hsv, if_neg heq]
    by_cases hr : r = max r (max g b)
    · -- case A: the red channel is the max
      have hgr : g ≤ r := hr ▸ le_trans (le_max_left g b) (le_max_right r _)
      have hbr : b ≤ r := hr ▸ le_trans (le_max_right g b) (le_max_right r _)
      have hr0 : r ≠ 0 := ne_of_gt (hr ▸ hM0)
      rw [if_pos hr, ← hr]
      rcases le_or_lt b g with hbg | hgb
      · -- A1: minc = b
        have hmb : min r (min g b) = b := by
          rw [min_eq_right hbg, min_eq_right hbr]
        rw [hmb] at hlt ⊢
        rw [← hr] at hlt
        have hrb : (0 : K) < r - b := sub_pos.mpr hlt
        have hrb0 : r - b ≠ 0 := ne_of_gt hrb
        have hs : (r - b) / r ≠ 0 := div_ne_zero hrb0 hr0
        have hh0 : (r - b) / (r - b) - (r - g) / (r - b) = (g - b) / (r - b) := by
          rw [div_sub_div_same]
          congr 1
          ring
        rw [hh0]
        rcases eq_or_lt_of_le hgr with hgr' | hgr'
        · -- A1b: g = r, h0 = 1, sector 1 with f = 0
          subst hgr'
          have h1 : (g - b) / (g - b) = 1 := div_self hrb0
          rw [h1, pymod1_self (by norm_num) (by norm_num)]
          rw [hsv_to_rgb_eval _ _ _ hs 1 (by norm_num) (by norm_num)
            (by push_cast; norm_num) (by push_cast; norm_num)]
          norm_num [Prod.mk.injEq]
          field_simp
        · -- A1a: b ≤ g < r, h0 ∈ [0,1), sector 0
          have h00 : 0 ≤ (g - b) / (r - b) := div_nonneg (by linarith) (le_of_lt hrb)
          have h01 : (g - b) / (r - b) < 1 := (div_lt_one hrb).mpr (by linarith)
          rw [pymod1_self (by positivity) (by linarith)]
          have h6 : (g - b) / (r - b) / 6 * 6 = (g - b) / (r - b) := by ring
          rw [hsv_to_rgb_eval _ _ _ hs 0 (by norm_num) (by norm_num)
            (by push_cast; rw [h6]; linarith) (by push_cast; rw [h6]; linarith)]
          norm_num [Prod.mk.injEq]
          constructor
          · field_simp
            ring
          · field_simp
      · -- A2: minc = g, sector 5
        have hmb : min r (min g b) = g := by
          rw [min_eq_left (le_of_lt hgb), min_eq_right hgr]
        rw [hmb] at hlt ⊢
        rw [← hr] at hlt
        have hrg : (0 : K) < r - g := sub_pos.mpr hlt
        have hrg0 : r - g ≠ 0 := ne_of_gt hrg
        have hs : (r - g) / r ≠ 0 := div_ne_zero hrg0 hr0
        have hh0 : (r - b) / (r - g) - (r - g) / (r - g) = (g - b) / (r - g) := by
          rw [div_sub_div_same]
          congr 1
          ring
        rw [hh0]
        have hneg : (g - b) / (r - g) < 0 :=
          div_neg_of_neg_of_pos (sub_neg.mpr hgb) hrg
        have hge : (-1 : K) ≤ (g - b) / (r - g) := by
          rw [le_div_iff₀ hrg]
          linarith
        rw [pymod1_add_one (by linarith) (by linarith)]
        rcases eq_or_lt_of_le hbr with hbr' | hbr'
        · -- A2b: b = r, h0 = -1, sector 5 with f = 0
          subst hbr'
          have h1 : (g - b) / (b - g) = -1 := by
            rw [div_eq_iff hrg0]
            ring
          rw [h1]
          rw [hsv_to_rgb_eval _ _ _ hs 5 (by norm_num) (by norm_num)
            (by push_cast; norm_num) (by push_cast; norm_num)]
          norm_num [Prod.mk.injEq]
          field_simp
        · -- A2a: g < b < r, h0 ∈ (-1, 0), sector 5
          have hgt : (-1 : K) < (g - b) / (r - g) := by
            rw [lt_div_iff₀ hrg]
            linarith
          have h6 : ((g - b) / (r - g) / 6 + 1) * 6 = (g - b) / (r - g) + 6 := by ring
          rw [hsv_to_rgb_eval _ _ _ hs 5 (by norm_num) (by norm_num)
            (by push_cast; rw [h6]; linarith) (by push_cast; rw [h6]; linarith)]
          norm_num [Prod.mk.injEq]
          constructor
          · field_simp
          · field_simp
            ring
    · by_cases hg : g = max r (max g b)
      · -- case B: the green channel is the max
        have hrM : r < max r (max g b) := lt_of_le_of_ne (le_max_left _ _) hr
        have hbg : b ≤ g := hg ▸ le_trans (le_max_right g b) (le_max_right r _)
        have hrg : r < g := by
          rw [hg]
          exact hrM
        have hg0 : g ≠ 0 := ne_of_gt (hg ▸ hM0)
        rw [if_neg hr, if_pos hg, ← hg]
        rcases le_or_lt b r with hbr | hrb
        · -- B1: minc = b
          have hmb : min r (min g b) = b := by
            rw [min_eq_right hbg, min_eq_right hbr]
          rw [hmb] at hlt ⊢
          rw [← hg] at hlt
          have hgb' : (0 : K) < g - b := sub_pos.mpr hlt
          have hgb0 : g - b ≠ 0 := ne_of_gt hgb'
          have hs : (g - b) / g ≠ 0 := div_ne_zero hgb0 hg0
          have hh0 : 2 + (g - r) / (g - b) - (g - b) / (g - b)
              = 2 + (b - r) / (g - b) := by
            field_simp
            ring
          rw [hh0]
          have hle : (b - r) / (g - b) ≤ 0 :=
            div_nonpos_of_nonpos_of_nonneg (by linarith) (le_of_lt hgb')
          have hgt : (-1 : K) < (b - r) / (g - b) := by
            rw [lt_div_iff₀ hgb']
            linarith
          rcases eq_or_lt_of_le hbr with hbr' | hbr'
          · -- B1b: b = r, h0 = 2, sector 2 with f = 0
            subst hbr'
            have h1 : (2 : K) + (b - b) / (g - b) = 2 := by
              norm_num
            rw [h1, pymod1_self (by norm_num) (by norm_num)]
            rw [hsv_to_rgb_eval _ _ _ hs 2 (by norm_num) (by norm_num)
              (by push_cast; norm_num) (by push_cast; norm_num)]
            norm_num [Prod.mk.injEq]
            field_simp
          · -- B1a: b < r < g, h0 ∈ (1, 2), sector 1
            have h00 : 0 ≤ 2 + (b - r) / (g - b) := by linarith
            have h01 : 2 + (b - r) / (g - b) < 2 := by
              have : (b - r) / (g - b) < 0 :=
                div_neg_of_neg_of_pos (by linarith) hgb'
              linarith
            rw [pymod1_self (by positivity) (by linarith)]
            have h6 : (2 + (b - r) / (g - b)) / 6 * 6 = 2 + (b - r) / (g - b) := by
              ring
            rw [hsv_to_rgb_eval _ _ _ hs 1 (by norm_num) (by norm_num)
              (by push_cast; rw [h6]; linarith) (by push_cast; rw [h6]; linarith)]
            norm_num [Prod.mk.injEq]
            constructor
            · field_simp
              ring
            · field_simp
        · -- B2: minc = r
          have hmb : min r (min g b) = r := by
            rw [min_eq_right hbg, min_eq_left (le_of_lt hrb)]
          rw [hmb] at hlt ⊢
          rw [← hg] at hlt
          have hgr' : (0 : K) < g - r := sub_pos.mpr hlt
          have hgr0 : g - r ≠ 0 := ne_of_gt hgr'
          have hs : (g - r) / g ≠ 0 := div_ne_zero hgr0 hg0
          have hh0 : 2 + (g - r) / (g - r) - (g - b) / (g - r)
              = 2 + (b - r) / (g - r) := by
            field_simp
            ring
          rw [hh0]
          have hpos : 0 < (b - r) / (g - r) := div_pos (by linarith) hgr'
          have hle1 : (b - r) / (g - r) ≤ 1 := by
            rw [div_le_one hgr']
            linarith
          rcases eq_or_lt_of_le hbg with hbg' | hbg'
          · -- B2b: b = g, h0 = 3, sector 3 with f = 0
            subst hbg'
            have h1 : (2 : K) + (b - r) / (b - r) = 3 := by
              rw [div_self hgr0]
              norm_num
            rw [h1, pymod1_self (by norm_num) (by norm_num)]
            rw [hsv_to_rgb_eval _ _ _ hs 3 (by norm_num) (by norm_num)
              (by push_cast; norm_num) (by push_cast; norm_num)]
            norm_num [Prod.mk.injEq]
            field_simp
          · -- B2a: r < b < g, h0 ∈ (2, 3), sector 2
            have hlt1 : (b - r) / (g - r) < 1 := by
              rw [div_lt_one hgr']
              linarith
            have h00 : 0 ≤ 2 + (b - r) / (g - r) := by linarith
            have h01 : 2 + (b - r) / (g - r) < 3 := by linarith
            rw [pymod1_self (by positivity) (by linarith)]
            have h6 : (2 + (b - r) / (g - r)) / 6 * 6 = 2 + (b - r) / (g - r) := by
              ring
            rw [hsv_to_rgb_eval _ _ _ hs 2 (by norm_num) (by norm_num)
              (by push_cast; rw [h6]; linarith) (by push_cast; rw [h6]; linarith)]
            norm_num [Prod.mk.injEq]
            constructor
            · field_simp
            · field_simp
              ring
      · -- case C: the blue channel is the max
        have hbM : b = max r (max g b) := by
          rcases max_choice r (max g b) with h | h
          · exact absurd h.symm hr
          · rcases max_choice g b with h2 | h2
            · exact absurd (h.trans h2).symm hg
            · exact (h.trans h2).symm
        have hrM : r < max r (max g b) := lt_of_le_of_ne (le_max_left _ _) hr
        have hgM : g < max r (max g b) :=
          lt_of_le_of_ne (le_trans (le_max_left g b) (le_max_right r _)) hg
        have hrb : r < b := by
          rw [hbM]
          exact hrM
        have hgb : g < b := by
          rw [hbM]
          exact hgM
        have hb0 : b ≠ 0 := ne_of_gt (hbM ▸ hM0)
        rw [if_neg hr, if_neg hg, ← hbM]
        rcases le_or_lt g r with hgr | hrg
        · -- C1: minc = g, sector 4
          have hmb : min r (min g b) = g := by
            rw [min_eq_left (le_of_lt hgb), min_eq_right hgr]
          rw [hmb] at hlt ⊢
          rw [← hbM] at hlt
          have hbg' : (0 : K) < b - g := sub_pos.mpr hlt
          have hbg0 : b - g ≠ 0 := ne_of_gt hbg'
          have hs : (b - g) / b ≠ 0 := div_ne_zero hbg0 hb0
          have hh0 : 4 + (b - g) / (b - g) - (b - r) / (b - g)
              = 4 + (r - g) / (b - g) := by
            field_simp
            ring
          rw [hh0]
          have h00 : 0 ≤ (r - g) / (b - g) := div_nonneg (by linarith) (le_of_lt hbg')
          have h01 : (r - g) / (b - g) < 1 := by
            rw [div_lt_one hbg']
            linarith
          rw [pymod1_self (by positivity) (by linarith)]
          have h6 : (4 + (r - g) / (b - g)) / 6 * 6 = 4 + (r - g) / (b - g) := by
            ring
          rw [hsv_to_rgb_eval _ _ _ hs 4 (by norm_num) (by norm_num)
            (by push_cast; rw [h6]; linarith) (by push_cast; rw [h6]; linarith)]
          norm_num [Prod.mk.injEq]
          constructor
          · field_simp
            ring
          · field_simp
        · -- C2: minc = r, sector 3
          have hmb : min r (min g b) = r := by
            rw [min_eq_left (le_of_lt hgb), min_eq_left (le_of_lt hrg)]
          rw [hmb] at hlt ⊢
          rw [← hbM] at hlt
          have hbr' : (0 : K) < b - r := sub_pos.mpr hlt
          have hbr0 : b - r ≠ 0 := ne_of_gt hbr'
          have hs : (b - r) / b ≠ 0 := div_ne_zero hbr0 hb0
          have hh0 : 4 + (b - g) / (b - r) - (b - r) / (b - r)
              = 4 + (r - g) / (b - r) := by
            field_simp
            ring
          rw [hh0]
          have hneg : (r - g) / (b - r) < 0 :=
            div_neg_of_neg_of_pos (by linarith) hbr'
          have hgt : (-1 : K) < (r - g) / (b - r) := by
            rw [lt_div_iff₀ hbr']
            linarith
          have h00 : 0 ≤ 4 + (r - g) / (b - r) := by linarith
          have h01 : 4 + (r - g) / (b - r) < 4 := by linarith
          rw [pymod1_self (by positivity) (by linarith)]
          have h6 : (4 + (r - g) / (b - r)) / 6 * 6 = 4 + (r - g) / (b - r) := by
            ring
          rw [hsv_to_rgb_eval _ _ _ hs 3 (by norm_num) (by norm_num)
            (by push_cast; rw [h6]; linarith) (by push_cast; rw [h6]; linarith)]
          norm_num [Prod.mk.injEq]
          constructor
          · field_simp
          · field_simp
            ring

end Roundtrip


section Bounds

variable {K : Type} [LinearOrderedField K] [FloorRing K]

lemma pymod1_nonneg (x : K) : 0 ≤ pymod1 x := by
  unfold pymod1
  have := Int.floor_le x
  linarith

lemma pymod1_lt_one (x : K) : pymod1 x < 1 := by
  unfold pymod1
  have := Int.lt_floor_add_one x
  push_cast at this
  linarith

/-- `only_red_pixel` just zeroes green and blue: the HSV round trip on a
pure-red pixel is the identity. -/
lemma only_red_pixel_eq (px : RGBA K) (h : 0 ≤ px.r) :
    only_red_pixel px = ⟨px.r, 0, 0, px.a⟩ := by
  have h3 := roundtrip_aux px.r 0 0 h le_rfl le_rfl
  simp only [only_red_pixel, h3]

/-- Channel ranges of `rgb_to_hsv` on nonnegative input: hue in `[0,1)`,
saturation in `[0,1]`, value equal to the channel maximum. -/
lemma rgb_to_hsv_ranges (r g b : K) (h0r : 0 ≤ r) (h0g : 0 ≤ g) (h0b : 0 ≤ b) :
    0 ≤ (rgb_to_hsv r g b).1 ∧ (rgb_to_hsv r g b).1 < 1 ∧
    0 ≤ (rgb_to_hsv r g b).2.1 ∧ (rgb_to_hsv r g b).2.1 ≤ 1 ∧
    (rgb_to_hsv r g b).2.2 = max r (max g b) := by
  unfold rgb_to_hsv
  by_cases heq : min r (min g b) = max r (max g b)
  · simp [heq]
  · have hm0 : 0 ≤ min r (min g b) := le_min h0r (le_min h0g h0b)
    have hlt : min r (min g b) < max r (max g b) :=
      lt_of_le_of_ne (le_trans (min_le_left _ _) (le_max_left _ _)) heq
    have hM0 : 0 < max r (max g b) := lt_of_le_of_lt hm0 hlt
    simp only [if_neg heq]
    refine ⟨pymod1_nonneg _, pymod1_lt_one _, ?_, ?_, trivial⟩
    · exact div_nonneg (by linarith) (le_of_lt hM0)
    · rw [div_le_one hM0]
      linarith

/-- Channel bounds of `hsv_to_rgb`: with a nonnegative hue, a saturation in
`[0,1]` and a nonnegative value, every output channel lies in `[0, v]`. -/
lemma hsv_to_rgb_bounds (h s v : K) (hh : 0 ≤ h) (hs0 : 0 ≤ s) (hs1 : s ≤ 1)
    (hv : 0 ≤ v) :
    (0 ≤ (hsv_to_rgb h s v).1 ∧ (hsv_to_rgb h s v).1 ≤ v) ∧
    (0 ≤ (hsv_to_rgb h s v).2.1 ∧ (hsv_to_rgb h s v).2.1 ≤ v) ∧
    (0 ≤ (hsv_to_rgb h s v).2.2 ∧ (hsv_to_rgb h s v).2.2 ≤ v) := by
  unfold hsv_to_rgb
  by_cases hs : s = 0
  · simp [hs, hv, le_refl]
  · have hnn : (0 : K) ≤ h * 6 := by positivity
    simp only [if_neg hs, pyInt_of_nonneg hnn]
    have hf0 : 0 ≤ h * 6 - ((⌊h * 6⌋ : ℤ) : K) := by
      have := Int.floor_le (h * 6)
      linarith
    have hf1 : h * 6 - ((⌊h * 6⌋ : ℤ) : K) < 1 := by
      have := Int.lt_floor_add_one (h * 6)
      push_cast at this ⊢
      linarith
    have hsf : s * (h * 6 - ((⌊h * 6⌋ : ℤ) : K)) ≤ s :=
      mul_le_of_le_one_right hs0 (le_of_lt hf1)
    have hsf0 : 0 ≤ s * (h * 6 - ((⌊h * 6⌋ : ℤ) : K)) := mul_nonneg hs0 hf0
    have hst : s * (1 - (h * 6 - ((⌊h * 6⌋ : ℤ) : K))) ≤ s :=
      mul_le_of_le_one_right hs0 (by linarith)
    have hst0 : 0 ≤ s * (1 - (h * 6 - ((⌊h * 6⌋ : ℤ) : K))) :=
      mul_nonneg hs0 (by linarith)
    have hp0 : 0 ≤ v * (1 - s) := mul_nonneg hv (by linarith)
    have hp1 : v * (1 - s) ≤ v := by nlinarith
    have hq0 : 0 ≤ v * (1 - s * (h * 6 - ((⌊h * 6⌋ : ℤ) : K))) :=
      mul_nonneg hv (by linarith)
    have hq1 : v * (1 - s * (h * 6 - ((⌊h * 6⌋ : ℤ) : K))) ≤ v := by nlinarith
    have ht0 : 0 ≤ v * (1 - s * (1 - (h * 6 - ((⌊h * 6⌋ : ℤ) : K)))) :=
      mul_nonneg hv (by linarith)
    have ht1 : v * (1 - s * (1 - (h * 6 - ((⌊h * 6⌋ : ℤ) : K)))) ≤ v := by nlinarith
    split_ifs <;>
      refine ⟨⟨?_, ?_⟩, ⟨?_, ?_⟩, ?_, ?_⟩ <;>
      first
        | assumption
        | exact le_rfl

/-- All four channels of a `shift_hue_pixel` output stay in `[0, 255]` when
the input pixel does, the hue override is nonnegative, and the brightness
factor is in `[0, 1]`. -/
lemma shift_hue_pixel_bounds (px : RGBA K) (hout factor : K)
    (hr : 0 ≤ px.r ∧ px.r ≤ 255) (hg : 0 ≤ px.g ∧ px.g ≤ 255)
    (hb : 0 ≤ px.b ∧ px.b ≤ 255) (ha : 0 ≤ px.a ∧ px.a ≤ 255)
    (hh : 0 ≤ hout) (hf0 : 0 ≤ factor) (hf1 : factor ≤ 1) :
    (0 ≤ (shift_hue_pixel px hout factor).r ∧ (shift_hue_pixel px hout factor).r ≤ 255) ∧
    (0 ≤ (shift_hue_pixel px hout factor).g ∧ (shift_hue_pixel px hout factor).g ≤ 255) ∧
    (0 ≤ (shift_hue_pixel px hout factor).b ∧ (shift_hue_pixel px hout factor).b ≤ 255) ∧
    (0 ≤ (shift_hue_pixel px hout factor).a ∧ (shift_hue_pixel px hout factor).a ≤ 255) := by
  obtain ⟨-, -, hs0, hs1, hv⟩ := rgb_to_hsv_ranges px.r px.g px.b hr.1 hg.1 hb.1
  have hv0 : 0 ≤ (rgb_to_hsv px.r px.g px.b).2.2 := by
    rw [hv]
    exact le_trans hr.1 (le_max_left _ _)
  have hv255 : (rgb_to_hsv px.r px.g px.b).2.2 ≤ 255 := by
    rw [hv]
    exact max_le hr.2 (max_le hg.2 hb.2)
  have hvf0 : 0 ≤ (rgb_to_hsv px.r px.g px.b).2.2 * factor := mul_nonneg hv0 hf0
  have hvf255 : (rgb_to_hsv px.r px.g px.b).2.2 * factor ≤ 255 := by nlinarith
  obtain ⟨h1, h2, h3⟩ := hsv_to_rgb_bounds hout (rgb_to_hsv px.r px.g px.b).2.1
    ((rgb_to_hsv px.r px.g px.b).2.2 * factor) hh hs0 hs1 hvf0
  unfold shift_hue_pixel
  exact ⟨⟨h1.1, le_trans h1.2 hvf255⟩, ⟨h2.1, le_trans h2.2 hvf255⟩,
    ⟨h3.1, le_trans h3.2 hvf255⟩, ha⟩

end Bounds

/-- The brightness factor always lies in `[0, 1]`. -/
lemma brightness_mem (f d bl i : ℕ) :
    0 ≤ brightness f d bl i ∧ brightness f d bl i ≤ 1 := by
  unfold brightness
  constructor <;>
    nlinarith [Real.neg_one_le_sin (2 * Real.pi * ((bl : ℝ) / (d : ℝ)) * elapsed_time f i),
      Real.sin_le_one (2 * Real.pi * ((bl : ℝ) / (d : ℝ)) * elapsed_time f i)]

/-- The hue override is always nonnegative. -/
lemma hue_nonneg (f d s i : ℕ) : 0 ≤ hue f d s i := by
  unfold hue elapsed_time
  positivity



/-- numpy `astype('uint8')` agrees with plain truncation (no modular
reduction) on samples already inside `[0, 255]`. -/
lemma astype_uint8_of_mem {K : Type} [LinearOrderedField K] [FloorRing K]
    {x : K} (h0 : 0 ≤ x) (h1 : x ≤ 255) : astype_uint8 x = pyInt x := by
  have hfl0 : 0 ≤ ⌊x⌋ := Int.floor_nonneg.mpr h0
  have hfl1 : ⌊x⌋ ≤ 255 := by
    have h2 := Int.floor_le_floor h1
    simpa using h2
  unfold astype_uint8
  rw [pyInt_of_nonneg h0]
  exact Int.emod_eq_of_lt hfl0 (by omega)

/-- C1: the main loop runs over `range(FRAME_RATE * DURATION)`, producing
exactly `frame_rate * duration` frames; for every configuration and frame
index the scheduler's hue is the spec's linear ramp
`(i / frame_rate) * (shifts / duration)` (not wrapped) and its brightness is
`0.5 + 0.5·sin(2π·(blinks/duration)·(i/frame_rate))`; in particular
`hue(0) = 0` and `brightness(0) = 0.5`. -/
theorem C1_scheduler_formulas :
    (∀ img : List (RGBA (Fin 256)), (frames img).length = FRAME_RATE * DURATION) ∧
    (∀ frame_rate duration shifts blinks i : ℕ,
      hue frame_rate duration shifts i = spec_hue frame_rate duration shifts i ∧
      brightness frame_rate duration blinks i
        = spec_brightness frame_rate duration blinks i) ∧
    (∀ frame_rate duration shifts : ℕ, hue frame_rate duration shifts 0 = 0) ∧
    (∀ frame_rate duration blinks : ℕ, brightness frame_rate duration blinks 0 = 0.5) := by
  refine ⟨?_, ?_, ?_, ?_⟩
  · intro img
    unfold frames
    rw [List.length_map, List.length_range]
  · intro fr du sh bl i
    constructor
    · unfold hue spec_hue elapsed_time
      norm_num
    · rfl
  · intro fr du sh
    unfold hue elapsed_time
    norm_num
  · intro fr du bl
    unfold brightness elapsed_time
    norm_num

/-- C6: every frame's brightness lies in `[0, 1]`, and it equals exactly `1`
whenever the sine factor equals `1`. -/
theorem C6_brightness_range (frame_rate duration blinks i : ℕ)
    (_hi : i < frame_rate * duration) :
    (0 ≤ brightness frame_rate duration blinks i ∧
      brightness frame_rate duration blinks i ≤ 1) ∧
    (Real.sin (2 * Real.pi * ((blinks : ℝ) / (duration : ℝ)) *
        elapsed_time frame_rate i) = 1 →
      brightness frame_rate duration blinks i = 1) := by
  refine ⟨brightness_mem _ _ _ _, ?_⟩
  intro hsin
  unfold brightness
  rw [hsin]
  norm_num

/-- Witness for C6 at `frame_rate = 4`, `duration = 1`, `blinks = 1`,
`i = 1`: the sine argument is `π/2`, so the brightness attains exactly 1. -/
theorem C6_brightness_range_witness :
    1 < 4 * 1 ∧
    ((0 ≤ brightness 4 1 1 1 ∧ brightness 4 1 1 1 ≤ 1) ∧
      (Real.sin (2 * Real.pi * (((1 : ℕ) : ℝ) / ((1 : ℕ) : ℝ)) *
          elapsed_time 4 1) = 1 →
        brightness 4 1 1 1 = 1)) ∧
    brightness 4 1 1 1 = 1 := by
  have harg : 2 * Real.pi * (((1 : ℕ) : ℝ) / ((1 : ℕ) : ℝ)) * elapsed_time 4 1
      = Real.pi / 2 := by
    unfold elapsed_time
    push_cast
    ring
  refine ⟨by norm_num, C6_brightness_range 4 1 1 1 (by norm_num), ?_⟩
  apply (C6_brightness_range 4 1 1 1 (by norm_num)).2
  rw [harg]
  exact Real.sin_pi_div_two

/-- C8: the animation save step yields no artifact exactly on the empty
frame list (`frames[0]` raises), and on a nonempty list produces the
artifact with frame 0 as base and the remaining frames appended. -/
theorem C8_empty_frames_rejected (F : Type) (d : ℚ) (l : ℕ) :
    (∀ fs : List F, (save fs d l = none ↔ fs = [])) ∧
    (∀ (f0 : F) (rest : List F),
      save (f0 :: rest) d l = some ⟨f0, rest, d, l⟩) := by
  constructor
  · intro fs
    cases fs <;> simp [save]
  · intro f0 rest
    rfl

/-- C9: the duration actually passed to the encoder is the unrounded
`1000 / FRAME_RATE = 200/3 ≈ 66.667`, while the earlier rounded
`frame_duration_ms = 67` is a different number (and is not what is saved). -/
theorem C9_saved_duration_unrounded (img : List (RGBA (Fin 256))) :
    ∃ a : Animation (List (RGBA ℤ)), output img = some a ∧
      a.duration = 1000 / (FRAME_RATE : ℚ) ∧
      a.duration = 200 / 3 ∧
      frame_duration_ms = 67 ∧
      a.duration ≠ (frame_duration_ms : ℚ) := by
  have hfl : ⌊(1000 : ℚ) / (FRAME_RATE : ℚ)⌋ = 66 := by
    rw [show ((FRAME_RATE : ℕ) : ℚ) = 15 from by norm_num [FRAME_RATE]]
    exact Int.floor_eq_iff.mpr (by norm_num)
  have h67 : frame_duration_ms = 67 := by
    unfold frame_duration_ms pyRound
    rw [hfl]
    rw [show ((FRAME_RATE : ℕ) : ℚ) = 15 from by norm_num [FRAME_RATE]]
    norm_num
  have hne : frames img ≠ [] := by
    unfold frames
    simp [FRAME_RATE, DURATION]
  obtain ⟨f0, rest, hfr⟩ := List.exists_cons_of_ne_nil hne
  refine ⟨⟨f0, rest, 1000 / (FRAME_RATE : ℚ), 0⟩, ?_, rfl, ?_, h67, ?_⟩
  · unfold output
    rw [hfr]
    rfl
  · norm_num [FRAME_RATE]
  · rw [h67]
    norm_num [FRAME_RATE]

/-- C4 (counterexample): the code's float→uint8 conversion wraps modulo 256
instead of clamping: at input `256` it yields `0`, not the clamped `255`. -/
theorem C4_wrap_counterexample :
    astype_uint8 (256 : ℚ) = 0 ∧ astype_uint8 (256 : ℚ) ≠ 255 ∧
    spec_clamp_uint8 (256 : ℚ) = 255 := by
  norm_num [astype_uint8, spec_clamp_uint8, pyInt]

/-- C4 (amended): on samples already in the valid range `[0, 256)` the
conversion truncates toward zero and agrees with clamping; out-of-range
samples wrap around modulo 256 instead of clamping. -/
theorem C4_amended_truncation (x : ℚ) (h0 : 0 ≤ x) (h1 : x < 256) :
    astype_uint8 x = spec_clamp_uint8 x ∧ astype_uint8 x = ⌊x⌋ := by
  have hfl0 : 0 ≤ ⌊x⌋ := Int.floor_nonneg.mpr h0
  have hfl1 : ⌊x⌋ < 256 := by
    rw [Int.floor_lt]
    push_cast
    exact h1
  have hmod : ⌊x⌋ % 256 = ⌊x⌋ := Int.emod_eq_of_lt hfl0 hfl1
  unfold astype_uint8 spec_clamp_uint8
  rw [pyInt_of_nonneg h0, hmod, max_eq_right hfl0, min_eq_right (by omega)]
  exact ⟨rfl, rfl⟩

/-- Witness for C4 (amended) at `x = 401/2 = 200.5`. -/
theorem C4_amended_truncation_witness :
    (0 : ℚ) ≤ 401 / 2 ∧ (401 : ℚ) / 2 < 256 ∧
    (astype_uint8 ((401 : ℚ) / 2) = spec_clamp_uint8 ((401 : ℚ) / 2) ∧
      astype_uint8 ((401 : ℚ) / 2) = ⌊(401 : ℚ) / 2⌋) :=
  ⟨by norm_num, by norm_num, C4_amended_truncation (401 / 2) (by norm_num) (by norm_num)⟩

/-- C2: `shift_hue` is an order-insensitive per-pixel map (output pixel `i`
depends only on input pixel `i`), and on each pixel it replaces the HSV hue
with `hout` (no addition), multiplies the HSV value by `factor`, keeps the
input pixel's saturation, and keeps its alpha. -/
theorem C2_shift_hue_pixelwise {K : Type} [LinearOrderedField K] [FloorRing K]
    (arr : List (RGBA K)) (hout factor : K) (_hfac : 0 ≤ factor) :
    (shift_hue arr hout factor).length = arr.length ∧
    (∀ i : ℕ, (shift_hue arr hout factor)[i]? =
      (arr[i]?).map (fun px => shift_hue_pixel px hout factor)) ∧
    (∀ px : RGBA K,
      shift_hue_pixel px hout factor =
        ⟨(hsv_to_rgb hout (rgb_to_hsv px.r px.g px.b).2.1
            ((rgb_to_hsv px.r px.g px.b).2.2 * factor)).1,
          (hsv_to_rgb hout (rgb_to_hsv px.r px.g px.b).2.1
            ((rgb_to_hsv px.r px.g px.b).2.2 * factor)).2.1,
          (hsv_to_rgb hout (rgb_to_hsv px.r px.g px.b).2.1
            ((rgb_to_hsv px.r px.g px.b).2.2 * factor)).2.2,
          px.a⟩) := by
  refine ⟨by simp [shift_hue], ?_, fun px => rfl⟩
  intro i
  unfold shift_hue
  exact List.getElem?_map ..

/-- Witness for C2 at a concrete rational raster with `factor = 2 ≥ 0`. -/
theorem C2_shift_hue_pixelwise_witness :
    (0 : ℚ) ≤ 2 ∧
    (shift_hue [(⟨1, 2, 3, 4⟩ : RGBA ℚ)] 0 2).length
      = [(⟨1, 2, 3, 4⟩ : RGBA ℚ)].length :=
  ⟨by norm_num, (C2_shift_hue_pixelwise [⟨1, 2, 3, 4⟩] 0 2 (by norm_num)).1⟩

/-- C3: the alpha channel of every output frame pixel equals the source
pixel's alpha, and neither `shift_hue` nor `only_red` ever alters an alpha
sample. -/
theorem C3_alpha_preserved (img : List (RGBA (Fin 256))) (i : ℕ) :
    (new_img img i).map RGBA.a = img.map (fun px => ((px.a : ℕ) : ℤ)) ∧
    (∀ (arr : List (RGBA ℝ)) (hout factor : ℝ),
      (shift_hue arr hout factor).map RGBA.a = arr.map RGBA.a) ∧
    (∀ arr : List (RGBA ℝ), (only_red arr).map RGBA.a = arr.map RGBA.a) := by
  refine ⟨?_, ?_, ?_⟩
  · unfold new_img frame_float shift_hue baseline only_red
    simp only [List.map_map]
    apply List.map_congr_left
    intro px _
    show astype_uint8 ((px.a : ℕ) : ℝ) = ((px.a : ℕ) : ℤ)
    unfold astype_uint8
    rw [pyInt_of_nonneg (by positivity), Int.floor_natCast]
    exact Int.emod_eq_of_lt (by positivity) (by exact_mod_cast px.a.isLt)
  · intro arr hout factor
    unfold shift_hue
    rw [List.map_map]
    rfl
  · intro arr
    unfold only_red
    rw [List.map_map]
    rfl

/-- C5: the colorsys-style RGB→HSV→RGB round trip without modification is
the identity on every pixel with channels in the valid range (exactly, in
exact arithmetic). -/
theorem C5_rgb_hsv_roundtrip {K : Type} [LinearOrderedField K] [FloorRing K]
    (r g b : K) (h0r : 0 ≤ r) (_h255r : r ≤ 255) (h0g : 0 ≤ g) (_h255g : g ≤ 255)
    (h0b : 0 ≤ b) (_h255b : b ≤ 255) :
    hsv_to_rgb (rgb_to_hsv r g b).1 (rgb_to_hsv r g b).2.1 (rgb_to_hsv r g b).2.2
      = (r, g, b) :=
  roundtrip_aux r g b h0r h0g h0b

/-- Witness for C5 at the rational pixel `(100, 50, 25)`. -/
theorem C5_rgb_hsv_roundtrip_witness :
    ((0 : ℚ) ≤ 100 ∧ (100 : ℚ) ≤ 255 ∧ (0 : ℚ) ≤ 50 ∧ (50 : ℚ) ≤ 255 ∧
      (0 : ℚ) ≤ 25 ∧ (25 : ℚ) ≤ 255) ∧
    hsv_to_rgb (rgb_to_hsv (100 : ℚ) 50 25).1 (rgb_to_hsv (100 : ℚ) 50 25).2.1
      (rgb_to_hsv (100 : ℚ) 50 25).2.2 = (100, 50, 25) :=
  ⟨by norm_num,
    C5_rgb_hsv_roundtrip 100 50 25 (by norm_num) (by norm_num) (by norm_num)
      (by norm_num) (by norm_num) (by norm_num)⟩

/-- C7: the baseline buffer is exactly the source image with green and blue
zeroed, red and alpha unchanged — the RGB→HSV→RGB round trip after zeroing
is the identity on pure-red pixels. -/
theorem C7_baseline_zeroes_green_blue (img : List (RGBA (Fin 256))) :
    baseline img
      = img.map (fun px => ⟨((px.r : ℕ) : ℝ), 0, 0, ((px.a : ℕ) : ℝ)⟩) := by
  unfold baseline only_red
  rw [List.map_map]
  apply List.map_congr_left
  intro px _
  show only_red_pixel (astype_float px) = _
  rw [only_red_pixel_eq _ (by show (0 : ℝ) ≤ ((px.r : ℕ) : ℝ); positivity)]
  rfl

/-- C10: under the actual pipeline configuration every float channel of
every frame lies in `[0, 255]` before the uint8 conversion, so the
conversion is plain truncation and its modular wrap-around is never
exercised. -/
theorem C10_no_wraparound (img : List (RGBA (Fin 256))) (i : ℕ) :
    (frame_float img i).Forall
      (fun px => (0 ≤ px.r ∧ px.r ≤ 255) ∧ (0 ≤ px.g ∧ px.g ≤ 255) ∧
        (0 ≤ px.b ∧ px.b ≤ 255) ∧ (0 ≤ px.a ∧ px.a ≤ 255)) ∧
    new_img img i = (frame_float img i).map
      (fun px => ⟨pyInt px.r, pyInt px.g, pyInt px.b, pyInt px.a⟩) := by
  have hbound : ∀ px ∈ frame_float img i,
      (0 ≤ px.r ∧ px.r ≤ 255) ∧ (0 ≤ px.g ∧ px.g ≤ 255) ∧
      (0 ≤ px.b ∧ px.b ≤ 255) ∧ (0 ≤ px.a ∧ px.a ≤ 255) := by
    intro px hpx
    unfold frame_float shift_hue at hpx
    rw [List.mem_map] at hpx
    obtain ⟨py, hpy, rfl⟩ := hpx
    have hpy' : (0 ≤ py.r ∧ py.r ≤ 255) ∧ (0 ≤ py.g ∧ py.g ≤ 255) ∧
        (0 ≤ py.b ∧ py.b ≤ 255) ∧ (0 ≤ py.a ∧ py.a ≤ 255) := by
      unfold baseline only_red at hpy
      rw [List.map_map, List.mem_map] at hpy
      obtain ⟨pz, _, rfl⟩ := hpy
      have hpx_eq : (only_red_pixel ∘ astype_float) pz
          = (⟨((pz.r : ℕ) : ℝ), 0, 0, ((pz.a : ℕ) : ℝ)⟩ : RGBA ℝ) := by
        show only_red_pixel (astype_float pz) = _
        rw [only_red_pixel_eq _ (by show (0 : ℝ) ≤ ((pz.r : ℕ) : ℝ); positivity)]
        rfl
      rw [hpx_eq]
      have hr : ((pz.r : ℕ) : ℝ) ≤ 255 := by
        exact_mod_cast Nat.lt_succ_iff.mp pz.r.isLt
      have ha : ((pz.a : ℕ) : ℝ) ≤ 255 := by
        exact_mod_cast Nat.lt_succ_iff.mp pz.a.isLt
      exact ⟨⟨by positivity, hr⟩, ⟨le_rfl, by norm_num⟩, ⟨le_rfl, by norm_num⟩,
        ⟨by positivity, ha⟩⟩
    exact shift_hue_pixel_bounds py _ _ hpy'.1 hpy'.2.1 hpy'.2.2.1 hpy'.2.2.2
      (hue_nonneg _ _ _ _) (brightness_mem _ _ _ _).1 (brightness_mem _ _ _ _).2
  constructor
  · rw [List.forall_iff_forall_mem]
    exact hbound
  · unfold new_img
    apply List.map_congr_left
    intro px hpx
    obtain ⟨⟨hr0, hr1⟩, ⟨hg0, hg1⟩, ⟨hb0, hb1⟩, ⟨ha0, ha1⟩⟩ := hbound px hpx
    rw [RGBA.mk.injEq]
    exact ⟨astype_uint8_of_mem hr0 hr1, astype_uint8_of_mem hg0 hg1,
      astype_uint8_of_mem hb0 hb1, astype_uint8_of_mem ha0 ha1⟩

end Logo
